import Mathlib

/-!
Verification development for the `fish` light-sheet microscopy utilities.

The repository has three Python source files:
* `fish/image/vol.py` — numeric utilities (`baseline`, `dff`,
  `rearrange_bidirectional_stack`, `filter_flat`, `unfilter_flat`,
  `sub_proj`, …), embedded below over lists of rationals (1-D case,
  interpolation/filter axis = axis 0 of a 1-D array).
* `fish/util/fileio.py`, `fish/scripts/save_dff.py` — I/O and glue, not
  needed by the properties below.

The `SampledAxisView` (`InterpArray`) lazy interpolating view described by
the specification does not appear in the source tree; it is modelled from
the specification text (§3, §4.1, §7), as marked on each definition.
-/

namespace Fish

open scoped List

/-- Modelled from the spec: the `InterpArray` / `SampledAxisView` class is
absent from `src/`; its data model follows spec §3.  `backing` is the
ordered container of stored samples (elements `α` stand for the slices
along the non-interpolated trailing axes), `sampleIndices` the strictly
increasing positions along the virtual axis at which `backing` was
sampled, and `virtualShape0` the first component of the declared virtual
shape, bounding valid query indices. -/
structure SampledAxisView (α : Type) where
  backing : List α
  sampleIndices : List ℕ
  virtualShape0 : ℕ

/-- Modelled from the spec (§4.1 step 2): the index of the first entry of
`distances` that is `≥ 0`, if any.  `lowerBoundPos` is this value minus
one. -/
def findFirstNonneg : List ℤ → Option ℕ
  | [] => none
  | d :: ds => if 0 ≤ d then some 0 else (findFirstNonneg ds).map (· + 1)

/-- Modelled from the spec: `interpolate_at` of `SampledAxisView`
(spec §4.1), absent from `src/`.  Follows the algorithm steps 1–6:
distances, first non-negative distance, clamp to `backing[0]` when
`lowerBoundPos = -1`, otherwise the linear-interpolation weights
`w0 = (interval - |d|)/interval`, `w1 = |d|/interval` applied to the
bracketing pair of backing elements.  `none` models the index error the
spec records for queries above the last sample (§9) and for out-of-bounds
backing access. -/
def interpolate_at {α : Type} [AddCommMonoid α] [Module ℚ α]
    (v : SampledAxisView α) (index : ℕ) : Option α :=
  let distances : List ℤ := v.sampleIndices.map (fun (s : ℕ) => (s : ℤ) - (index : ℤ))
  match findFirstNonneg distances with
  | none => none
  | some j =>
    if j = 0 then
      v.backing.head?
    else
      let lb := j - 1
      let s0 : ℤ := v.sampleIndices.getD lb 0
      let s1 : ℤ := v.sampleIndices.getD (lb + 1) 0
      let interval : ℚ := ((s1 - s0 : ℤ) : ℚ)
      let dist : ℚ := |((s0 - (index : ℤ) : ℤ) : ℚ)|
      let w0 : ℚ := (interval - dist) / interval
      let w1 : ℚ := dist / interval
      match v.backing.get? lb, v.backing.get? (lb + 1) with
      | some b0, some b1 => some (w0 • b0 + w1 • b1)
      | _, _ => none

/-- Modelled from the spec (§4.1 `get`): the selector is a single integer,
an ordered sequence of integers, a slice over the first axis
(end-exclusive, with step), or a compound multi-axis selector (modelled by
the 2-tuple case the spec uses). -/
inductive Selector where
  | single (i : ℕ)
  | seq (is : List ℕ)
  | slice (start stop step : ℕ)
  | multi (fst snd : ℕ)

/-- Modelled from the spec (§7): the error taxonomy of the view. -/
inductive ViewError where
  | UnsupportedSelectorError
  | OutOfRangeError
deriving DecidableEq

/-- Modelled from the spec (§4.1): result of `get` — one element for an
integer selector, an ordered sequence of elements otherwise. -/
inductive GetResult (α : Type) where
  | single (a : α)
  | several (as : List α)

/-- Modelled from the spec: single-index lookup used by `get`; enforces the
precondition `0 ≤ index < virtualShape[0]` (spec §4.1/§7 `OutOfRangeError`)
and delegates to `interpolate_at`. -/
def getOne {α : Type} [AddCommMonoid α] [Module ℚ α]
    (v : SampledAxisView α) (i : ℕ) : Except ViewError α :=
  if i < v.virtualShape0 then
    match interpolate_at v i with
    | some a => .ok a
    | none => .error .OutOfRangeError
  else .error .OutOfRangeError

/-- Modelled from the spec: lookup of an ordered sequence of indices, one
interpolated element per index, preserving selector order; fails as a
whole if any single lookup fails (spec §7, no partial failure). -/
def getMany {α : Type} [AddCommMonoid α] [Module ℚ α]
    (v : SampledAxisView α) : List ℕ → Except ViewError (List α)
  | [] => .ok []
  | i :: is =>
    match getOne v i, getMany v is with
    | .ok a, .ok as => .ok (a :: as)
    | .error e, _ => .error e
    | .ok _, .error e => .error e

/-- Modelled from the spec: a slice over the first axis materialized into
concrete indices (end-exclusive, with step). -/
def sliceIndices (start stop step : ℕ) : List ℕ :=
  (List.range ((stop - start + step - 1) / step)).map (fun k => start + step * k)

/-- Modelled from the spec: the `get` operation of `SampledAxisView`
(spec §4.1), absent from `src/`.  A single integer delegates to
`interpolate_at`; a sequence or slice returns the ordered sequence of
interpolated elements; a multi-axis (compound) selector fails with
`UnsupportedSelectorError` (spec §4.1, §7). -/
def get {α : Type} [AddCommMonoid α] [Module ℚ α]
    (v : SampledAxisView α) : Selector → Except ViewError (GetResult α)
  | .single i =>
    match getOne v i with
    | .ok a => .ok (.single a)
    | .error e => .error e
  | .seq is =>
    match getMany v is with
    | .ok as => .ok (.several as)
    | .error e => .error e
  | .slice start stop step =>
    match getMany v (sliceIndices start stop step) with
    | .ok as => .ok (.several as)
    | .error e => .error e
  | .multi _ _ => .error .UnsupportedSelectorError

/-! ### Embeddings of the numeric utilities in `fish/image/vol.py`
(1-D case: arrays are `List ℚ`, the filter/interpolation axis is the only
axis). -/

/-- Index mapping of scipy's default boundary mode `reflect`
(`(d c b a | a b c d | d c b a)`), used by `percentile_filter`: fold an
out-of-range position into `[0, n)` by reflecting about the edges, with the
edge value repeated. -/
def reflectIdx (n : ℕ) (i : ℤ) : ℕ :=
  let m := (i.emod (2 * n)).toNat
  if m < n then m else 2 * n - 1 - m

/-- `scipy.ndimage.filters.percentile_filter` on a 1-D array with window
`size = w`, boundary mode `reflect`, origin `0`: each output position `i`
is the entry of rank `⌊w * percentile / 100⌋` (rank `w - 1` for
`percentile = 100`) in the sorted window of the `w` input entries at
positions `i - w/2, …, i + w - 1 - w/2`. -/
def percentile_filter (data : List ℚ) (percentile : ℕ) (w : ℕ) : List ℚ :=
  let n := data.length
  let rank := if percentile = 100 then w - 1 else w * percentile / 100
  (List.range n).map (fun i =>
    let window := (List.range w).map
      (fun k => data.getD (reflectIdx n ((i : ℤ) + (k : ℤ) - (w / 2 : ℕ))) 0)
    (window.insertionSort (· ≤ ·)).getD rank 0)

/-- `data[::ds]`: every `ds`-th element of `data`, starting at index 0. -/
def everyNth (data : List ℚ) (ds : ℕ) : List ℚ :=
  (List.range ((data.length + ds - 1) / ds)).map (fun k => data.getD (k * ds) 0)

/-- `scipy.interpolate.interp1d(range(0, n, ds), ys, fill_value='extrapolate')`
evaluated at the integer point `t`: linear interpolation between the knots
at positions `0, ds, 2·ds, …`, extrapolating with the last segment's slope
beyond the last knot (evaluation below the first knot does not occur in
`baseline`). -/
def interp1dEval (ds : ℕ) (ys : List ℚ) (t : ℕ) : ℚ :=
  let k := t / ds
  if k + 1 < ys.length then
    ys.getD k 0 + (ys.getD (k + 1) 0 - ys.getD k 0) * (((t : ℚ) - ds * k) / ds)
  else
    let m := ys.length - 1
    if 2 ≤ ys.length then
      ys.getD m 0 + (ys.getD m 0 - ys.getD (m - 1) 0) * (((t : ℚ) - ds * m) / ds)
    else ys.getD 0 0

/-- `baseline(data, window, percentile, downsample)` from
`fish/image/vol.py` (1-D `data`, `axis = -1`): a windowed percentile filter
of size `window // downsample`; with `downsample > 1` the filter runs on
`data[::downsample]` and the result is linearly interpolated
(`interp1d`, extrapolating) back onto `range(len(data))`. -/
def baseline (data : List ℚ) (window percentile downsample : ℕ) : List ℚ :=
  if downsample = 1 then
    percentile_filter data percentile (window / downsample)
  else
    let data_ds := everyNth data downsample
    let baseline_ds := percentile_filter data_ds percentile (window / downsample)
    (List.range data.length).map (interp1dEval downsample baseline_ds)

/-- `dff(data, window, percentile, baseline_offset, downsample)` from
`fish/image/vol.py` (1-D `data`, `axis = -1`):
`bl = baseline(...)`; `(data - bl) / (bl + baseline_offset)` elementwise. -/
def dff (data : List ℚ) (window percentile : ℕ) (baseline_offset : ℚ)
    (downsample : ℕ) : List ℚ :=
  let bl := baseline data window percentile downsample
  List.zipWith (fun x b => (x - b) / (b + baseline_offset)) data bl

/-- The glossary's reference definition of ΔF/F, written from the spec's
words for comparison with `dff`: `(signal - baseline) / (baseline + offset)`
elementwise. -/
def dffSpecFormula (signal bl : List ℚ) (offset : ℚ) : List ℚ :=
  List.zipWith (fun s b => (s - b) / (b + offset)) signal bl

/-- Interleaving of two lists: `interleave xs ys` places `xs` at the even
positions and `ys` at the odd positions.  This is the effect of the slice
assignments `new[0::2] = xs; new[1::2] = ys` in
`rearrange_bidirectional_stack` (the source writes into a fresh zeros
array whose even positions number `⌈z/2⌉` and odd positions `⌊z/2⌋`,
matching the lengths used below). -/
def interleave {α : Type} : List α → List α → List α
  | [], ys => ys
  | x :: xs, ys => x :: interleave ys xs
termination_by xs ys => xs.length + ys.length

/-- `rearrange_bidirectional_stack(stack_data)` from `fish/image/vol.py`:
planes are opaque elements `α`; with `z = len(stack_data)` and
`midpoint = ⌈z/2⌉`, even `z` interleaves `reversed(range(z)[midpoint:])`
into the even positions and `range(z)[:midpoint]` into the odd positions,
odd `z` the other way around; the result is `stack_data` indexed by that
index list. -/
def rearrange_bidirectional_stack {α : Type} [Inhabited α]
    (stack_data : List α) : List α :=
  let z := stack_data.length
  let midpoint := (z + 1) / 2
  let lower := List.range midpoint
  let upper := (List.range z).drop midpoint
  let z_range_new :=
    if z % 2 = 0 then interleave upper.reverse lower
    else interleave lower upper.reverse
  z_range_new.map (fun i => stack_data.getD i default)

/-- `filter_flat(vol, mask)` from `fish/image/vol.py` with an ndarray mask,
on raveled (1-D) data: the elements of `vol` at the positions where `mask`
is `True` (`vol_flat[mask_flat]`). -/
def filter_flat (vol : List ℚ) (mask : List Bool) : List ℚ :=
  match vol, mask with
  | v :: vs, true :: ms => v :: filter_flat vs ms
  | _ :: vs, false :: ms => filter_flat vs ms
  | _, _ => []

/-- `unfilter_flat(vec, mask)` from `fish/image/vol.py` on raveled (1-D)
data: a zeros array of `mask`'s shape whose `True` positions are filled
with the elements of `vec` in order (`vol[mask_flat == True] = vec`). -/
def unfilter_flat (vec : List ℚ) (mask : List Bool) : List ℚ :=
  match mask with
  | [] => []
  | true :: ms => vec.headD 0 :: unfilter_flat (vec.drop 1) ms
  | false :: ms => 0 :: unfilter_flat vec ms

/-- Maximum of a list of rationals (numpy `max` over an axis of a 1-D
region), with the head as the base case so that a singleton region is its
own maximum. -/
def listMax (l : List ℚ) : ℚ :=
  l.foldr max (l.headD 0)

/-- `sub_proj(im, ax, func, chop)` from `fish/image/vol.py` for a 1-D `im`,
`ax = 0`, `func = max`, returning the pair (state of `im` after the call,
returned projection).  The source mutates its argument:
`im[slices_crop] = im[slices_crop].max(ax, keepdims=True)` overwrites the
first `extra + 1` entries (`extra = im.shape[ax] % chop`) with their
maximum; the projection then reshapes `im[extra:]` to
`(chop, len // chop)` and projects each row. -/
def sub_proj (im : List ℚ) (chop : ℕ) : List ℚ × List ℚ :=
  let extra := im.length % chop
  let region := im.take (extra + 1)
  let m := listMax region
  let im2 := List.replicate region.length m ++ im.drop (extra + 1)
  let q := (im.length - extra) / chop
  let im_keep := im2.drop extra
  let im_proj := (List.range chop).map
    (fun j => listMax ((im_keep.drop (j * q)).take q))
  (im2, im_proj)

/-! ### Helper lemmas about the view -/

/-- `findFirstNonneg` on the distance list returns the position of the
first sample index `≥` the query: if `l.get j ≥ q` while every earlier
entry is `< q`, the first non-negative distance sits at position `j`. -/
theorem findFirstNonneg_map_eq (l : List ℕ) (q j : ℕ) (hj : j < l.length)
    (hge : q ≤ l.get ⟨j, hj⟩)
    (hlt : ∀ k (hk : k < j), l.get ⟨k, lt_trans hk hj⟩ < q) :
    findFirstNonneg (l.map (fun (s : ℕ) => (s : ℤ) - (q : ℤ))) = some j := by
  induction l generalizing j with
  | nil => exact absurd hj (Nat.not_lt_zero j)
  | cons a t ih =>
    cases j with
    | zero =>
      have ha : (0 : ℤ) ≤ (a : ℤ) - (q : ℤ) := by
        have : q ≤ a := hge
        omega
      simp [findFirstNonneg, ha]
    | succ j =>
      have ha : ¬ (0 : ℤ) ≤ (a : ℤ) - (q : ℤ) := by
        have : a < q := hlt 0 (Nat.succ_pos j)
        omega
      have hj' : j < t.length := Nat.lt_of_succ_lt_succ hj
      have hrec := ih j hj' hge (fun k hk => hlt (k + 1) (Nat.succ_lt_succ hk))
      simp [findFirstNonneg, ha, hrec]

/-- Unfolding of `interpolate_at` when the first non-negative distance is
at a positive position `j + 1`: the result is the weighted combination of
the bracketing backing elements at positions `j` and `j + 1`. -/
theorem interpolate_at_of_find_succ {α : Type} [AddCommMonoid α] [Module ℚ α]
    (v : SampledAxisView α) (index j : ℕ)
    (hfind : findFirstNonneg (v.sampleIndices.map (fun (s : ℕ) => (s : ℤ) - (index : ℤ)))
      = some (j + 1))
    (hb0 : j < v.backing.length) (hb1 : j + 1 < v.backing.length) :
    interpolate_at v index =
      some ((((((v.sampleIndices.getD (j + 1) 0 : ℤ) - (v.sampleIndices.getD j 0 : ℤ) : ℤ) : ℚ)
              - |(((v.sampleIndices.getD j 0 : ℤ) - (index : ℤ) : ℤ) : ℚ)|) /
            (((v.sampleIndices.getD (j + 1) 0 : ℤ) - (v.sampleIndices.getD j 0 : ℤ) : ℤ) : ℚ))
          • v.backing.get ⟨j, hb0⟩ +
        (|(((v.sampleIndices.getD j 0 : ℤ) - (index : ℤ) : ℤ) : ℚ)| /
            (((v.sampleIndices.getD (j + 1) 0 : ℤ) - (v.sampleIndices.getD j 0 : ℤ) : ℤ) : ℚ))
          • v.backing.get ⟨j + 1, hb1⟩) := by
  have hg0 : v.backing.get? j = some (v.backing.get ⟨j, hb0⟩) := List.get?_eq_get hb0
  have hg1 : v.backing.get? (j + 1) = some (v.backing.get ⟨j + 1, hb1⟩) :=
    List.get?_eq_get hb1
  simp only [interpolate_at, hfind, Nat.add_sub_cancel, hg0, hg1]
  simp

/-- Inversion of a successful single-index `get`: it yields a successful
`getOne` with the same element. -/
theorem getOne_of_get_single {α : Type} [AddCommMonoid α] [Module ℚ α]
    (v : SampledAxisView α) (i : ℕ) (y : α)
    (h : get v (.single i) = .ok (.single y)) : getOne v i = .ok y := by
  simp only [get] at h
  cases hg : getOne v i with
  | ok a => rw [hg] at h; cases h; rfl
  | error e => rw [hg] at h; cases h

/-- C5: for every `SampledAxisView` and every compound 2-tuple selector,
`get` fails with `UnsupportedSelectorError`; only 1-dimensional selection
returns a value. -/
theorem claim5_multi_axis_selector_rejected {α : Type} [AddCommMonoid α] [Module ℚ α]
    (v : SampledAxisView α) (a b : ℕ) :
    get v (.multi a b) = .error .UnsupportedSelectorError := rfl

/-- C4: querying an index strictly below the first stored sample index
(and within the virtual range) clamps to the first backing element: `get`
returns exactly `backing[0]`. -/
theorem claim4_clamp_below_first_sample {α : Type} [AddCommMonoid α] [Module ℚ α]
    (v : SampledAxisView α) (idx s0 : ℕ) (ss : List ℕ) (b0 : α) (bs : List α)
    (hs : v.sampleIndices = s0 :: ss) (hb : v.backing = b0 :: bs)
    (hidx : idx < s0) (hrange : idx < v.virtualShape0) :
    get v (.single idx) = .ok (.single b0) := by
  have hd : (0 : ℤ) ≤ (s0 : ℤ) - (idx : ℤ) := by omega
  have hfind : findFirstNonneg
      (v.sampleIndices.map (fun (s : ℕ) => (s : ℤ) - (idx : ℤ))) = some 0 := by
    rw [hs]
    simp [findFirstNonneg, hd]
  have hinterp : interpolate_at v idx = some b0 := by
    simp only [interpolate_at, hfind]
    simp [hb]
  simp [get, getOne, hrange, hinterp]

/-- C1: exactness at samples — querying any stored sample index returns the
corresponding backing element exactly (the linear weights degenerate to
1 and 0). -/
theorem claim1_exact_at_samples {α : Type} [AddCommMonoid α] [Module ℚ α]
    (v : SampledAxisView α) (i : ℕ) (hi : i < v.sampleIndices.length)
    (hlen : v.backing.length = v.sampleIndices.length)
    (hsort : v.sampleIndices.Pairwise (· < ·))
    (hrange : ∀ s ∈ v.sampleIndices, s < v.virtualShape0) :
    get v (.single (v.sampleIndices.get ⟨i, hi⟩)) =
      .ok (.single (v.backing.get ⟨i, by omega⟩)) := by
  have hget : ∀ k j (hk : k < v.sampleIndices.length) (hj : j < v.sampleIndices.length),
      k < j → v.sampleIndices.get ⟨k, hk⟩ < v.sampleIndices.get ⟨j, hj⟩ := by
    intro k j hk hj hkj
    exact List.pairwise_iff_get.mp hsort ⟨k, hk⟩ ⟨j, hj⟩ hkj
  have hvrange : v.sampleIndices.get ⟨i, hi⟩ < v.virtualShape0 :=
    hrange _ (List.get_mem _ _ _)
  have hfind : findFirstNonneg
      (v.sampleIndices.map
        (fun (s : ℕ) => (s : ℤ) - ((v.sampleIndices.get ⟨i, hi⟩ : ℕ) : ℤ))) = some i :=
    findFirstNonneg_map_eq _ _ i hi (le_refl _) (fun k hk => hget k i _ hi hk)
  cases i with
  | zero =>
    have hb0 : 0 < v.backing.length := by omega
    have hhead : v.backing.head? = some (v.backing.get ⟨0, hb0⟩) := by
      rw [List.head?_eq_getElem?, List.getElem?_eq_getElem hb0]
      simp
    have hinterp : interpolate_at v (v.sampleIndices.get ⟨0, hi⟩) =
        some (v.backing.get ⟨0, hb0⟩) := by
      simp only [interpolate_at, hfind]
      simp [hhead]
    simp only [List.get_eq_getElem] at hvrange hinterp
    simp [get, getOne, hvrange, hinterp]
  | succ j =>
    have hb0 : j < v.backing.length := by omega
    have hb1 : j + 1 < v.backing.length := by omega
    have hj1 : j + 1 < v.sampleIndices.length := hi
    have hj : j < v.sampleIndices.length := by omega
    have hsj : v.sampleIndices.getD j 0 = v.sampleIndices.get ⟨j, hj⟩ :=
      List.getD_eq_get _ _ hj
    have hsj1 : v.sampleIndices.getD (j + 1) 0 = v.sampleIndices.get ⟨j + 1, hj1⟩ :=
      List.getD_eq_get _ _ hj1
    have hlt : v.sampleIndices.get ⟨j, hj⟩ < v.sampleIndices.get ⟨j + 1, hj1⟩ :=
      hget j (j + 1) hj hj1 (Nat.lt_succ_self j)
    have hinterp := interpolate_at_of_find_succ v (v.sampleIndices.get ⟨j + 1, hj1⟩)
      j hfind hb0 hb1
    rw [hsj, hsj1] at hinterp
    set a : ℕ := v.sampleIndices.get ⟨j, hj⟩ with ha
    set b : ℕ := v.sampleIndices.get ⟨j + 1, hj1⟩ with hbdef
    have habs : |(((a : ℤ) - (b : ℤ) : ℤ) : ℚ)| = (((b : ℤ) - (a : ℤ) : ℤ) : ℚ) := by
      rw [abs_eq_neg_self.mpr]
      · push_cast; ring
      · have : (a : ℤ) ≤ (b : ℤ) := by exact_mod_cast le_of_lt hlt
        have : ((a : ℤ) - (b : ℤ) : ℤ) ≤ 0 := by omega
        exact_mod_cast this
    have hne : (((b : ℤ) - (a : ℤ) : ℤ) : ℚ) ≠ 0 := by
      have : (a : ℤ) < (b : ℤ) := by exact_mod_cast hlt
      have : (0 : ℤ) < (b : ℤ) - (a : ℤ) := by omega
      positivity
    rw [habs] at hinterp
    rw [sub_self, zero_div, div_self hne, zero_smul, one_smul, zero_add] at hinterp
    simp only [List.get_eq_getElem] at hvrange hinterp
    simp [get, getOne, hvrange, hinterp]

/-- A convex combination `((S - D) * a + D * b) / S` with `0 ≤ D ≤ S`,
`0 < S` lies between `min a b` and `max a b`. -/
theorem convex_combo_mem_interval (a b D S : ℚ) (hD : 0 ≤ D) (hDS : D ≤ S)
    (hS : 0 < S) :
    min a b ≤ ((S - D) * a + D * b) / S ∧ ((S - D) * a + D * b) / S ≤ max a b := by
  constructor
  · rw [le_div_iff hS]
    rcases le_total a b with hab | hab
    · rw [min_eq_left hab]
      nlinarith [mul_nonneg hD (sub_nonneg.mpr hab)]
    · rw [min_eq_right hab]
      nlinarith [mul_nonneg (sub_nonneg.mpr hDS) (sub_nonneg.mpr hab)]
  · rw [div_le_iff hS]
    rcases le_total a b with hab | hab
    · rw [max_eq_right hab]
      nlinarith [mul_nonneg (sub_nonneg.mpr hDS) (sub_nonneg.mpr hab)]
    · rw [max_eq_left hab]
      nlinarith [mul_nonneg hD (sub_nonneg.mpr hab)]

/-- C7: for scalar data, a query strictly between two adjacent stored
sample positions returns a value lying in the closed interval spanned by
the two bracketing backing values. -/
theorem claim7_interpolation_within_bracket
    (v : SampledAxisView ℚ) (i x : ℕ)
    (hi1 : i + 1 < v.sampleIndices.length)
    (hlen : v.backing.length = v.sampleIndices.length)
    (hsort : v.sampleIndices.Pairwise (· < ·))
    (hx : x < v.virtualShape0)
    (hlo : v.sampleIndices.getD i 0 < x)
    (hhi : x < v.sampleIndices.getD (i + 1) 0) :
    ∃ r : ℚ, get v (.single x) = .ok (.single r) ∧
      min (v.backing.getD i 0) (v.backing.getD (i + 1) 0) ≤ r ∧
      r ≤ max (v.backing.getD i 0) (v.backing.getD (i + 1) 0) := by
  have hi : i < v.sampleIndices.length := by omega
  have hb0 : i < v.backing.length := by omega
  have hb1 : i + 1 < v.backing.length := by omega
  have hgetlt : ∀ k j (hk : k < v.sampleIndices.length) (hj : j < v.sampleIndices.length),
      k < j → v.sampleIndices.get ⟨k, hk⟩ < v.sampleIndices.get ⟨j, hj⟩ := by
    intro k j hk hj hkj
    exact List.pairwise_iff_get.mp hsort ⟨k, hk⟩ ⟨j, hj⟩ hkj
  have hsdi : v.sampleIndices.getD i 0 = v.sampleIndices.get ⟨i, hi⟩ := by
    simp [List.getD_eq_getElem, hi]
  have hsdi1 : v.sampleIndices.getD (i + 1) 0 = v.sampleIndices.get ⟨i + 1, hi1⟩ := by
    simp [List.getD_eq_getElem, hi1]
  have hfind : findFirstNonneg
      (v.sampleIndices.map (fun (s : ℕ) => (s : ℤ) - (x : ℤ))) = some (i + 1) := by
    refine findFirstNonneg_map_eq _ x (i + 1) hi1 ?_ ?_
    · rw [hsdi1] at hhi; exact le_of_lt hhi
    · intro k hk
      rcases Nat.lt_succ_iff_lt_or_eq.mp hk with hki | hki
      · have h1 := hgetlt k i (by omega) hi hki
        rw [hsdi] at hlo
        omega
      · subst hki; rw [hsdi] at hlo; exact hlo
  have hinterp := interpolate_at_of_find_succ v x i hfind hb0 hb1
  rw [hsdi] at hinterp hlo
  rw [hsdi1] at hinterp hhi
  have hda : v.backing.getD i 0 = v.backing.get ⟨i, hb0⟩ := by
    simp [List.getD_eq_getElem, hb0]
  have hdb : v.backing.getD (i + 1) 0 = v.backing.get ⟨i + 1, hb1⟩ := by
    simp [List.getD_eq_getElem, hb1]
  rw [hda, hdb]
  generalize hsa : v.sampleIndices.get ⟨i, hi⟩ = sA at hinterp hlo
  generalize hsb : v.sampleIndices.get ⟨i + 1, hi1⟩ = sB at hinterp hhi
  generalize hga : v.backing.get ⟨i, hb0⟩ = a at hinterp ⊢
  generalize hgb : v.backing.get ⟨i + 1, hb1⟩ = b at hinterp ⊢
  have habs : |(((sA : ℤ) - (x : ℤ) : ℤ) : ℚ)| = (((x : ℤ) - (sA : ℤ) : ℤ) : ℚ) := by
    have h1 : (((sA : ℤ) - (x : ℤ) : ℤ) : ℚ) ≤ 0 := by
      exact_mod_cast (by omega : ((sA : ℤ) - (x : ℤ) : ℤ) ≤ 0)
    rw [abs_of_nonpos h1]
    push_cast
    ring
  rw [habs] at hinterp
  set S : ℚ := (((sB : ℤ) - (sA : ℤ) : ℤ) : ℚ) with hSdef
  set D : ℚ := (((x : ℤ) - (sA : ℤ) : ℤ) : ℚ) with hDdef
  have hSpos : 0 < S := by
    rw [hSdef]
    exact_mod_cast (by omega : (0 : ℤ) < (sB : ℤ) - (sA : ℤ))
  have hDpos : 0 < D := by
    rw [hDdef]
    exact_mod_cast (by omega : (0 : ℤ) < (x : ℤ) - (sA : ℤ))
  have hDS : D < S := by
    rw [hSdef, hDdef]
    exact_mod_cast (by omega : ((x : ℤ) - (sA : ℤ) : ℤ) < (sB : ℤ) - (sA : ℤ))
  have hpayload : ((S - D) / S) • a + (D / S) • b = ((S - D) * a + D * b) / S := by
    rw [smul_eq_mul, smul_eq_mul]
    ring
  rw [hpayload] at hinterp
  have hcc := convex_combo_mem_interval a b D S (le_of_lt hDpos) (le_of_lt hDS) hSpos
  refine ⟨((S - D) * a + D * b) / S, ?_, hcc.1, hcc.2⟩
  simp [get, getOne, hx, hinterp]

/-- C8: `get` with an ordered sequence of indices returns the interpolated
elements in exactly the input order, each equal to the corresponding
single-index `get`. -/
theorem claim8_order_preservation {α : Type} [AddCommMonoid α] [Module ℚ α]
    (v : SampledAxisView α) (i3 i1 i2 : ℕ) (y3 y1 y2 : α)
    (h3 : get v (.single i3) = .ok (.single y3))
    (h1 : get v (.single i1) = .ok (.single y1))
    (h2 : get v (.single i2) = .ok (.single y2)) :
    get v (.seq [i3, i1, i2]) = .ok (.several [y3, y1, y2]) := by
  have g3 := getOne_of_get_single v i3 y3 h3
  have g1 := getOne_of_get_single v i1 y1 h1
  have g2 := getOne_of_get_single v i2 y2 h2
  simp [get, getMany, g3, g1, g2]

/-- The concrete instance of the spec's scenario: `backing = [[0],[10],[20]]`
(one-element rows as functions on `Fin 1`), `sampleIndices = [0, 5, 10]`,
`virtualShape = (11, 1)`. -/
def specView : SampledAxisView (Fin 1 → ℚ) :=
  ⟨[fun _ => 0, fun _ => 10, fun _ => 20], [0, 5, 10], 11⟩

/-- C2: on the concrete instance, `get` returns `[0]` at index 0, `[10]` at
index 5, `[4]` at index 2 (weights 3/5 and 2/5), and `[20]` at index 10. -/
theorem claim2_concrete_scenario :
    get specView (.single 0) = .ok (.single (fun _ => 0)) ∧
    get specView (.single 5) = .ok (.single (fun _ => 10)) ∧
    get specView (.single 2) = .ok (.single (fun _ => 4)) ∧
    get specView (.single 10) = .ok (.single (fun _ => 20)) := by
  refine ⟨?_, ?_, ?_, ?_⟩
  · have hinterp : interpolate_at specView 0 = some (fun _ => 0) := by
      norm_num [interpolate_at, specView, findFirstNonneg]
    simp only [specView] at hinterp
    simp [get, getOne, hinterp, specView]
  · have hfind : findFirstNonneg
        (specView.sampleIndices.map (fun (s : ℕ) => (s : ℤ) - (5 : ℤ))) = some 1 := by
      simp [specView, findFirstNonneg]
    have hinterp := interpolate_at_of_find_succ specView 5 0 hfind
      (by simp [specView]) (by simp [specView])
    simp only [specView] at hinterp
    norm_num at hinterp
    simp [get, getOne, hinterp, specView]
  · have hfind : findFirstNonneg
        (specView.sampleIndices.map (fun (s : ℕ) => (s : ℤ) - (2 : ℤ))) = some 1 := by
      simp [specView, findFirstNonneg]
    have hinterp := interpolate_at_of_find_succ specView 2 0 hfind
      (by simp [specView]) (by simp [specView])
    simp only [specView] at hinterp
    norm_num at hinterp
    have hval : (((3 : ℚ)/5) • (fun _ : Fin 1 => (0 : ℚ)) +
        ((2 : ℚ)/5) • (fun _ : Fin 1 => (10 : ℚ))) = fun _ => 4 := by
      funext t
      simp [smul_eq_mul]
      norm_num
    rw [hval] at hinterp
    simp [get, getOne, hinterp, specView]
  · have hfind : findFirstNonneg
        (specView.sampleIndices.map (fun (s : ℕ) => (s : ℤ) - (10 : ℤ))) = some 2 := by
      simp [specView, findFirstNonneg]
    have hinterp := interpolate_at_of_find_succ specView 10 1 hfind
      (by simp [specView]) (by simp [specView])
    simp only [specView] at hinterp
    norm_num at hinterp
    simp [get, getOne, hinterp, specView]

/-- C3: `dff` computes exactly the glossary's reference ΔF/F formula
`(signal - baseline) / (baseline + offset)` applied elementwise to the
input and the baseline produced by the windowed percentile filter (with
optional downsampling and interpolation back to full length). -/
theorem claim3_dff_is_reference_formula
    (data : List ℚ) (window percentile : ℕ) (baseline_offset : ℚ)
    (downsample : ℕ) :
    dff data window percentile baseline_offset downsample =
      dffSpecFormula data (baseline data window percentile downsample)
        baseline_offset := rfl

/-- `interleave xs ys` is a permutation of `xs ++ ys` (fuel-indexed
auxiliary form). -/
theorem interleave_perm_aux {α : Type} (n : ℕ) :
    ∀ xs ys : List α, xs.length + ys.length ≤ n →
      (interleave xs ys).Perm (xs ++ ys) := by
  induction n with
  | zero =>
    intro xs ys h
    cases xs with
    | nil => simp [interleave]
    | cons x xs => simp at h
  | succ n ih =>
    intro xs ys h
    cases xs with
    | nil => simp [interleave]
    | cons x xs =>
      have hp := ih ys xs (by simp at h; omega)
      calc interleave (x :: xs) ys = x :: interleave ys xs := by rw [interleave]
        _ ~ x :: (ys ++ xs) := hp.cons x
        _ ~ x :: (xs ++ ys) := List.perm_append_comm.cons x
        _ = (x :: xs) ++ ys := rfl

/-- `interleave xs ys` is a permutation of `xs ++ ys`. -/
theorem interleave_perm {α : Type} (xs ys : List α) :
    (interleave xs ys).Perm (xs ++ ys) :=
  interleave_perm_aux (xs.length + ys.length) xs ys le_rfl

/-- Reading every position of a list through `getD` reproduces the list. -/
theorem map_getD_range {α : Type} (l : List α) (d : α) :
    (List.range l.length).map (fun i => l.getD i d) = l := by
  induction l with
  | nil => rfl
  | cons a t ih =>
    rw [List.length_cons, List.range_succ_eq_map]
    simp only [List.map_cons, List.map_map]
    refine congrArg (a :: ·) ?_
    calc (List.range t.length).map ((fun i => (a :: t).getD i d) ∘ Nat.succ)
        = (List.range t.length).map (fun i => t.getD i d) := by
          refine List.map_congr_left ?_
          intro i _
          simp [Function.comp]
      _ = t := ih

/-- C9: `rearrange_bidirectional_stack` permutes the planes of its input —
the output has the same length and contains every input plane exactly
once. -/
theorem claim9_rearrange_is_permutation {α : Type} [Inhabited α]
    (stack_data : List α) (h : 1 ≤ stack_data.length) :
    (rearrange_bidirectional_stack stack_data).length = stack_data.length ∧
    (rearrange_bidirectional_stack stack_data).Perm stack_data := by
  have hperm : (rearrange_bidirectional_stack stack_data).Perm stack_data := by
    simp only [rearrange_bidirectional_stack]
    have hmid : (stack_data.length + 1) / 2 ≤ stack_data.length := by omega
    have hranges : List.range ((stack_data.length + 1) / 2) ++
        (List.range stack_data.length).drop ((stack_data.length + 1) / 2) =
        List.range stack_data.length := by
      have htake : (List.range stack_data.length).take ((stack_data.length + 1) / 2)
          = List.range ((stack_data.length + 1) / 2) := by
        rw [List.take_range]
        congr 1
        omega
      rw [← htake, List.take_append_drop]
    have hidx : (if stack_data.length % 2 = 0 then
        interleave ((List.range stack_data.length).drop
          ((stack_data.length + 1) / 2)).reverse
          (List.range ((stack_data.length + 1) / 2))
      else
        interleave (List.range ((stack_data.length + 1) / 2))
          ((List.range stack_data.length).drop
            ((stack_data.length + 1) / 2)).reverse).Perm
        (List.range stack_data.length) := by
      split
      · calc interleave ((List.range stack_data.length).drop
              ((stack_data.length + 1) / 2)).reverse
              (List.range ((stack_data.length + 1) / 2))
            ~ ((List.range stack_data.length).drop
                ((stack_data.length + 1) / 2)).reverse ++
              List.range ((stack_data.length + 1) / 2) := interleave_perm _ _
          _ ~ (List.range stack_data.length).drop ((stack_data.length + 1) / 2) ++
              List.range ((stack_data.length + 1) / 2) :=
            (List.reverse_perm _).append_right _
          _ ~ List.range ((stack_data.length + 1) / 2) ++
              (List.range stack_data.length).drop ((stack_data.length + 1) / 2) :=
            List.perm_append_comm
          _ = List.range stack_data.length := hranges
      · calc interleave (List.range ((stack_data.length + 1) / 2))
              ((List.range stack_data.length).drop
                ((stack_data.length + 1) / 2)).reverse
            ~ List.range ((stack_data.length + 1) / 2) ++
              ((List.range stack_data.length).drop
                ((stack_data.length + 1) / 2)).reverse := interleave_perm _ _
          _ ~ List.range ((stack_data.length + 1) / 2) ++
              (List.range stack_data.length).drop ((stack_data.length + 1) / 2) :=
            (List.reverse_perm _).append_left _
          _ = List.range stack_data.length := hranges
    calc _ ~ (List.range stack_data.length).map
          (fun i => stack_data.getD i default) :=
        hidx.map (fun i => stack_data.getD i default)
      _ = stack_data := map_getD_range stack_data default
  exact ⟨hperm.length_eq, hperm⟩

/-- Witness for C9 at the concrete stack `[10, 20, 30, 40, 50]`. -/
theorem claim9_rearrange_witness :
    (rearrange_bidirectional_stack [10, 20, 30, 40, 50]).length =
      ([10, 20, 30, 40, 50] : List ℕ).length ∧
    (rearrange_bidirectional_stack [10, 20, 30, 40, 50]).Perm
      ([10, 20, 30, 40, 50] : List ℕ) :=
  claim9_rearrange_is_permutation [10, 20, 30, 40, 50] (by decide)

/-- Round trip: filtering the unfiltered vector through the same mask
recovers the vector, provided the vector length equals the number of
`true` entries of the mask. -/
theorem filter_flat_unfilter_flat (mask : List Bool) :
    ∀ vec : List ℚ, vec.length = mask.count true →
      filter_flat (unfilter_flat vec mask) mask = vec := by
  induction mask with
  | nil =>
    intro vec h
    simp only [List.count_nil] at h
    rw [List.length_eq_zero] at h
    subst h
    rfl
  | cons b ms ih =>
    intro vec h
    cases b with
    | false =>
      simp only [unfilter_flat, filter_flat]
      refine ih vec ?_
      simpa [List.count_cons] using h
    | true =>
      have hpos : 0 < vec.length := by
        simp [List.count_cons] at h
        omega
      cases vec with
      | nil => simp at hpos
      | cons a t =>
        simp only [unfilter_flat, List.headD_cons, List.drop_one, List.tail_cons,
          filter_flat]
        refine congrArg (a :: ·) ?_
        refine ih t ?_
        simp [List.count_cons] at h
        omega

/-- `unfilter_flat` writes `0` at every position where the mask is
`false`. -/
theorem unfilter_flat_false_eq_zero (mask : List Bool) :
    ∀ (vec : List ℚ) i (hi : i < mask.length), mask.get ⟨i, hi⟩ = false →
      (unfilter_flat vec mask).getD i 1 = 0 := by
  induction mask with
  | nil => intro vec i hi; simp at hi
  | cons b ms ih =>
    intro vec i hi hfalse
    cases i with
    | zero =>
      cases b with
      | false => simp [unfilter_flat]
      | true => simp at hfalse
    | succ i =>
      have hi' : i < ms.length := by simpa using hi
      have hfalse' : ms.get ⟨i, hi'⟩ = false := by simpa using hfalse
      cases b with
      | false =>
        simpa [unfilter_flat] using ih vec i hi' hfalse'
      | true =>
        simpa [unfilter_flat] using ih (vec.drop 1) i hi' hfalse'

/-- C10: `filter_flat (unfilter_flat vec mask) mask = vec` when `vec` has
one entry per `true` of the mask, and `unfilter_flat vec mask` is `0` at
every `false` position of the mask. -/
theorem claim10_unfilter_filter_round_trip (vec : List ℚ) (mask : List Bool)
    (h : vec.length = mask.count true) :
    filter_flat (unfilter_flat vec mask) mask = vec ∧
    ∀ i (hi : i < mask.length), mask.get ⟨i, hi⟩ = false →
      (unfilter_flat vec mask).getD i 1 = 0 :=
  ⟨filter_flat_unfilter_flat mask vec h,
    fun i hi hf => unfilter_flat_false_eq_zero mask vec i hi hf⟩

/-- Witness for C10 at `vec = [5, 6]`, `mask = [false, true, false, true]`. -/
theorem claim10_round_trip_witness :
    ([5, 6] : List ℚ).length = ([false, true, false, true] : List Bool).count true ∧
    (filter_flat (unfilter_flat [5, 6] [false, true, false, true])
        [false, true, false, true] = [5, 6] ∧
      ∀ i (hi : i < ([false, true, false, true] : List Bool).length),
        ([false, true, false, true] : List Bool).get ⟨i, hi⟩ = false →
          (unfilter_flat [5, 6] [false, true, false, true]).getD i 1 = 0) :=
  ⟨by decide, claim10_unfilter_filter_round_trip [5, 6] [false, true, false, true]
    (by decide)⟩

/-- C6 counterexample: `sub_proj` does not leave its input unchanged — on
`im = [1, 2, 3]`, `ax = 0`, `chop = 2` the in-place assignment overwrites
the first two entries with their maximum, so `im` becomes `[2, 2, 3]`. -/
theorem claim6_sub_proj_mutates_counterexample :
    (sub_proj [1, 2, 3] 2).1 ≠ [1, 2, 3] := by
  norm_num [sub_proj, listMax, max_def, List.replicate]

/-- C6 (amended): `sub_proj` leaves `im` unchanged exactly in the
divisible case — when `chop` divides `im.shape[ax]` the assigned region is
a single entry replaced by its own maximum; otherwise the first
`extra + 1` entries are overwritten with their maximum. -/
theorem claim6_sub_proj_pure_when_divisible (im : List ℚ) (chop : ℕ)
    (h : im.length % chop = 0) : (sub_proj im chop).1 = im := by
  cases im with
  | nil => simp [sub_proj]
  | cons a t =>
    have h2 : (t.length + 1) % chop = 0 := by simpa using h
    simp [sub_proj, h2, listMax]

/-- Witness for the amended C6 at `im = [1, 2, 3, 4]`, `chop = 2`. -/
theorem claim6_sub_proj_pure_witness :
    ([1, 2, 3, 4] : List ℚ).length % 2 = 0 ∧
    (sub_proj [1, 2, 3, 4] 2).1 = [1, 2, 3, 4] :=
  ⟨by decide, claim6_sub_proj_pure_when_divisible [1, 2, 3, 4] 2 (by decide)⟩

/-- A small scalar view used by the concrete witnesses: samples `[1, 5, 2]`
stored at virtual positions `[0, 3, 9]` of a virtual axis of length 12. -/
def scalarView : SampledAxisView ℚ := ⟨[1, 5, 2], [0, 3, 9], 12⟩

/-- Witness for C1 at `scalarView`, sample position `i = 1`. -/
theorem claim1_exact_witness :
    (1 < scalarView.sampleIndices.length) ∧
    scalarView.backing.length = scalarView.sampleIndices.length ∧
    scalarView.sampleIndices.Pairwise (· < ·) ∧
    (∀ s ∈ scalarView.sampleIndices, s < scalarView.virtualShape0) ∧
    get scalarView (.single (scalarView.sampleIndices.get ⟨1, by decide⟩)) =
      .ok (.single (scalarView.backing.get ⟨1, by decide⟩)) :=
  ⟨by decide, by decide, by decide, by decide,
    claim1_exact_at_samples scalarView 1 (by decide) (by decide) (by decide)
      (by decide)⟩

/-- A second small scalar view whose first stored sample sits at virtual
position 4 (so that queries below it exercise the clamp). -/
def clampView : SampledAxisView ℚ := ⟨[7, 9], [4, 8], 10⟩

/-- Witness for C4 at `clampView`, query index 2 (below the first sample
position 4). -/
theorem claim4_clamp_witness :
    clampView.sampleIndices = 4 :: [8] ∧
    clampView.backing = 7 :: [9] ∧
    2 < 4 ∧ 2 < clampView.virtualShape0 ∧
    get clampView (.single 2) = .ok (.single 7) :=
  ⟨rfl, rfl, by decide, by decide,
    claim4_clamp_below_first_sample clampView 2 4 [8] 7 [9] rfl rfl
      (by decide) (by decide)⟩

/-- Witness for C7 at `clampView`, query index 5 strictly between the
stored samples at positions 4 and 8. -/
theorem claim7_bracket_witness :
    (0 + 1 < clampView.sampleIndices.length) ∧
    clampView.backing.length = clampView.sampleIndices.length ∧
    clampView.sampleIndices.Pairwise (· < ·) ∧
    5 < clampView.virtualShape0 ∧
    clampView.sampleIndices.getD 0 0 < 5 ∧
    5 < clampView.sampleIndices.getD (0 + 1) 0 ∧
    ∃ r : ℚ, get clampView (.single 5) = .ok (.single r) ∧
      min (clampView.backing.getD 0 0) (clampView.backing.getD (0 + 1) 0) ≤ r ∧
      r ≤ max (clampView.backing.getD 0 0) (clampView.backing.getD (0 + 1) 0) :=
  ⟨by decide, by decide, by decide, by decide, by decide, by decide,
    claim7_interpolation_within_bracket clampView 0 5 (by decide) (by decide)
      (by decide) (by decide) (by decide) (by decide)⟩

/-- Witness for C8 at `clampView` with the index sequence `[3, 1, 2]` (all
below the first sample, so every single lookup returns `7`). -/
theorem claim8_order_witness :
    get clampView (.single 3) = .ok (.single 7) ∧
    get clampView (.single 1) = .ok (.single 7) ∧
    get clampView (.single 2) = .ok (.single 7) ∧
    get clampView (.seq [3, 1, 2]) = .ok (.several [7, 7, 7]) :=
  ⟨rfl, rfl, rfl,
    claim8_order_preservation clampView 3 1 2 7 7 7 rfl rfl rfl⟩

end Fish
